import Mathlib

/-!
# Verification of the npm-dashboard growth engine and data pipeline

A shallow embedding, in Lean 4, of the growth-metrics engine
(`src/utils/growthCalculations.ts`), the package-persistence layer
(`saveDownloadStats` / the backfill insert path), the backfill bucket walk,
the package-name validators and the dashboard sort, together with theorems
checking the natural-language specification against them.

JavaScript numbers are modelled by `JsNum`: exact rationals extended with
`+Infinity`, `-Infinity` and `NaN`, with IEEE-754 comparison and subtraction
semantics on those special values (rational arithmetic stands in for float
arithmetic; every concrete value appearing in the spec is exactly
representable).
-/

namespace NpmDashboard

/-- Model of a JavaScript `number`: an exact rational, `+Infinity`,
`-Infinity`, or `NaN`. -/
inductive JsNum where
  | nan : JsNum
  | neginf : JsNum
  | fin : ℚ → JsNum
  | posinf : JsNum
deriving DecidableEq, Repr

namespace JsNum

/-- IEEE-754 `<` on the modelled values: every comparison involving `NaN`
is `false`; `-Infinity` is below and `+Infinity` above every finite value. -/
def lt : JsNum → JsNum → Bool
  | nan, _ => false
  | _, nan => false
  | neginf, neginf => false
  | neginf, _ => true
  | fin _, neginf => false
  | fin a, fin b => decide (a < b)
  | fin _, posinf => true
  | posinf, _ => false

/-- IEEE-754 subtraction on the modelled values: `NaN` is absorbing,
`∞ − ∞ = NaN`, `∞ − x = ∞`, `x − ∞ = −∞`, and finite values subtract
exactly. -/
def sub : JsNum → JsNum → JsNum
  | nan, _ => nan
  | _, nan => nan
  | posinf, posinf => nan
  | posinf, _ => posinf
  | neginf, neginf => nan
  | neginf, _ => neginf
  | fin _, posinf => neginf
  | fin _, neginf => posinf
  | fin a, fin b => fin (a - b)

end JsNum

/-- From `src/unnamed/part_001` (`calculateGrowthRate`):
`if (previous === 0) return current > 0 ? Infinity : 0;`
`return ((current - previous) / previous) * 100`. -/
def calculateGrowthRate (current previous : ℚ) : JsNum :=
  if previous = 0 then (if 0 < current then .posinf else .fin 0)
  else .fin ((current - previous) / previous * 100)

/-- The loop of `isExponentialGrowth` building `growthRates`:
`for (i = 1; i < n; i++) rates.push(calculateGrowthRate(h[i], h[i-1]))`. -/
def growthRatesOf : List ℚ → List JsNum
  | a :: b :: rest => calculateGrowthRate b a :: growthRatesOf (b :: rest)
  | _ => []

/-- The loop of `isExponentialGrowth` counting `accelerationCount`:
`for (i = 1; i < rates.length; i++) if (rates[i] > rates[i-1]) count++`. -/
def countAccel : List JsNum → Nat
  | a :: b :: rest => (if JsNum.lt a b then 1 else 0) + countAccel (b :: rest)
  | _ => 0

/-- From `src/unnamed/part_001` (`isExponentialGrowth`): fewer than 3 points
is `false`; otherwise build the growth-rate sequence, count strictly
increasing consecutive pairs, and test `count / (rates.length - 1) > 0.6`. -/
def isExponentialGrowth (downloadHistory : List ℚ) : Bool :=
  if downloadHistory.length < 3 then false
  else
    let growthRates := growthRatesOf downloadHistory
    decide ((countAccel growthRates : ℚ) / ((growthRates.length : ℚ) - 1) > 3 / 5)

/-- From `src/unnamed/part_001` (`calculateAcceleration`): `null` when fewer
than 3 points, otherwise
`calculateGrowthRate(h[n-1], h[n-2]) - calculateGrowthRate(h[n-2], h[n-3])`. -/
def calculateAcceleration (downloadHistory : List ℚ) : Option JsNum :=
  if downloadHistory.length < 3 then none
  else
    let n := downloadHistory.length
    let recentGrowth :=
      calculateGrowthRate (downloadHistory.getD (n - 1) 0) (downloadHistory.getD (n - 2) 0)
    let previousGrowth :=
      calculateGrowthRate (downloadHistory.getD (n - 2) 0) (downloadHistory.getD (n - 3) 0)
    some (recentGrowth.sub previousGrowth)

/-- The closed union of trend labels of `GrowthMetrics['trend']`. -/
inductive Trend where
  | exponential | accelerating | growing | stable | declining
deriving DecidableEq, Repr

/-- From `src/unnamed/part_001` (`determineTrend`): the `if` cascade
`isExponential → acceleration !== null && acceleration > 10 →`
`growthRate > 20 → growthRate > -10 → declining`. -/
def determineTrend (growthRate : JsNum) (acceleration : Option JsNum)
    (isExponential : Bool) : Trend :=
  if isExponential then .exponential
  else if (match acceleration with
           | some a => JsNum.lt (.fin 10) a
           | none => false) then .accelerating
  else if JsNum.lt (.fin 20) growthRate then .growing
  else if JsNum.lt (.fin (-10)) growthRate then .stable
  else .declining

/-- The `PackageDownloads` row interface of `src/lib/supabase.ts`. The
`date` string is only ever consumed through `new Date(date).getTime()`, so
it is embedded as that integer timestamp. -/
structure PackageDownloads where
  id : String
  package_name : String
  downloads : ℚ
  date : ℤ
  created_at : String
deriving DecidableEq, Repr

/-- The `GrowthMetrics` record of `src/unnamed/part_001`. -/
structure GrowthMetrics where
  packageName : String
  currentDownloads : ℚ
  previousDownloads : ℚ
  growthRate : JsNum
  percentageGrowth : JsNum
  isExponential : Bool
  acceleration : Option JsNum
  trend : Trend
  dataPoints : ℕ
deriving DecidableEq, Repr

/-- One step of a stable comparator sort: insert `x` (an earlier element)
after every element strictly before it, before the first element not
strictly before it. -/
def insertCmp (lt : α → α → Bool) (x : α) : List α → List α
  | [] => [x]
  | y :: ys => if lt y x then y :: insertCmp lt x ys else x :: y :: ys

/-- Stable sort by a comparator, modelling JavaScript
`Array.prototype.sort(cmp)` (stable per ES2019) where `lt a b` means
`cmp(a, b) < 0`: equal-comparing elements keep their original relative
order. -/
def sortCmp (lt : α → α → Bool) : List α → List α
  | [] => []
  | x :: xs => insertCmp lt x (sortCmp lt xs)

/-- The comparator `(a, b) => new Date(a.date).getTime() - new Date(b.date).getTime()`
of `calculateGrowthMetrics`, as a strict `<` test. -/
def dateLt (a b : PackageDownloads) : Bool := decide (a.date < b.date)

/-- From `src/unnamed/part_001` (`calculateGrowthMetrics`): degenerate
record for fewer than 2 points; otherwise sort by date, take the download
history, and assemble growth rate, acceleration, exponential flag and
trend. -/
def calculateGrowthMetrics (packageName : String)
    (downloadData : List PackageDownloads) : GrowthMetrics :=
  let dataPoints := downloadData.length
  if dataPoints < 2 then
    { packageName := packageName
      currentDownloads := (downloadData.head?.map (fun d => d.downloads)).getD 0
      previousDownloads := 0
      growthRate := .fin 0
      percentageGrowth := .fin 0
      isExponential := false
      acceleration := none
      trend := .stable
      dataPoints := dataPoints }
  else
    let sortedData := sortCmp dateLt downloadData
    let downloadHistory := sortedData.map (fun d => d.downloads)
    let current := downloadHistory.getD (downloadHistory.length - 1) 0
    let previous := downloadHistory.getD (downloadHistory.length - 2) 0
    let growthRate := calculateGrowthRate current previous
    let acceleration := calculateAcceleration downloadHistory
    let isExponential := isExponentialGrowth downloadHistory
    let trend := determineTrend growthRate acceleration isExponential
    { packageName := packageName
      currentDownloads := current
      previousDownloads := previous
      growthRate := growthRate
      percentageGrowth := growthRate
      isExponential := isExponential
      acceleration := acceleration
      trend := trend
      dataPoints := dataPoints }

/-- The `acceleration` arm of `sortMetrics` in
`src/components/Dashboard.tsx`, as a strict "comes first" test:
`cmp(a, b) < 0` where both-null compares 0, a-null compares 1, b-null
compares −1, and otherwise `cmp = b.acceleration - a.acceleration`. -/
def accelLt (a b : GrowthMetrics) : Bool :=
  match a.acceleration, b.acceleration with
  | none, none => false
  | none, some _ => false
  | some _, none => true
  | some x, some y => JsNum.lt (JsNum.sub y x) (JsNum.fin 0)

/-- `sortMetrics` with `sortBy = 'acceleration'` and descending order:
a stable sort by the `accelLt` comparator. -/
def sortMetricsAccelDesc (metrics : List GrowthMetrics) : List GrowthMetrics :=
  sortCmp accelLt metrics



/-- A row of the `package_downloads` table: the columns written by the
persistence paths (`package_name`, `date` as a `YYYY-MM-DD` string,
`downloads`). -/
structure DownloadRow where
  package_name : String
  date : String
  downloads : ℚ
deriving DecidableEq, Repr

/-- The `(package_name, date)` key test backing both the
`UNIQUE(package_name, date)` constraint of `supabase-schema.sql` and the
`onConflict` clause of the upsert. -/
def rowKeyIs (pkg dt : String) (r : DownloadRow) : Bool :=
  decide (r.package_name = pkg) && decide (r.date = dt)

/-- The `package_downloads` table contents. -/
abbrev Store := List DownloadRow

/-- The `UNIQUE(package_name, date)` invariant: at most one row per
`(package, date)`. -/
def KeyUnique (s : Store) : Prop :=
  s.Pairwise fun r r2 => ¬(r.package_name = r2.package_name ∧ r.date = r2.date)

/-- From `src/services/npmService.ts` (`saveDownloadStats`): an upsert with
`onConflict: package_name,date` — when a row with the key exists its
`downloads` is updated in place, otherwise the new row is appended. -/
def saveDownloadStats (s : Store) (packageName : String) (downloads : ℚ)
    (date : String) : Store :=
  if s.any (rowKeyIs packageName date) then
    s.map (fun r => if rowKeyIs packageName date r then { r with downloads := downloads } else r)
  else s ++ [{ package_name := packageName, date := date, downloads := downloads }]

/-- The write of `backfillPackageData` in `src/unnamed/part_000`: a plain
`insert` into `package_downloads`; under `UNIQUE(package_name, date)` a
duplicate key is rejected with an error and the table is unchanged. Returns
the table contents and the error flag. -/
def backfillInsert (s : Store) (packageName : String) (downloads : ℚ)
    (date : String) : Store × Bool :=
  if s.any (rowKeyIs packageName date) then (s, true)
  else (s ++ [{ package_name := packageName, date := date, downloads := downloads }], false)



/-- date-fns `startOfDay` at day granularity: time is measured in days,
a day boundary is an integer, and `startOfDay` truncates to the enclosing
day boundary. -/
def startOfDay (t : ℚ) : ℤ := ⌊t⌋

/-- One weekly bucket of the backfill walk. -/
structure Bucket where
  startDate : ℤ
  endDate : ℤ
deriving DecidableEq, Repr

/-- Step `i` of the backfill walk: bucket end
`startOfDay(subWeeks(dataAvailableUntil, i))`, bucket start
`startOfDay(subDays(end, 6))`. -/
def bucketAt (dataAvailableUntil : ℤ) (i : ℕ) : Bucket :=
  let endDate := startOfDay ((dataAvailableUntil : ℚ) - 7 * i)
  { startDate := startOfDay ((endDate : ℚ) - 6), endDate := endDate }

/-- From `backfillPackage` (`src/scripts/backfill.ts`) and
`backfillPackageData` (`src/unnamed/part_000`): with cutoff
`startOfDay(subDays(now, 3))` walk `i = 0..weeksBack` over `bucketAt`;
a bucket whose end date lies in the future is skipped without fetching.
The list holds the visited (fetched) buckets in walk order. -/
def backfillBuckets (now : ℚ) (weeksBack : ℕ) : List Bucket :=
  let dataAvailableUntil : ℤ := startOfDay (now - 3)
  ((List.range (weeksBack + 1)).map (bucketAt dataAvailableUntil)).filter
    (fun b => !(decide ((b.endDate : ℚ) > now)))



/-- The leading character class `[a-z0-9-~]` shared by both validator
regexes. -/
def isNameFirstChar (c : Char) : Bool :=
  ('a' ≤ c && c ≤ 'z') || ('0' ≤ c && c ≤ '9') || c == '-' || c == '~'

/-- The non-leading character class `[a-z0-9-._~]` shared by both validator
regexes (note: it contains the underscore). -/
def isNameRestChar (c : Char) : Bool :=
  isNameFirstChar c || c == '.' || c == '_'

/-- The backend regex's scope-leading class `[a-z0-9-*~]` (it adds `*`). -/
def isScopeFirstCharB (c : Char) : Bool :=
  isNameFirstChar c || c == '*'

/-- The backend regex's scope non-leading class `[a-z0-9-*._~]`. -/
def isScopeRestCharB (c : Char) : Bool :=
  isNameRestChar c || c == '*'

/-- One segment of the name grammar: a leading character from `first`
followed by characters from `rest`. -/
def namePartMatch (first rest : Char → Bool) : List Char → Bool
  | [] => false
  | c :: cs => first c && cs.all rest

/-- Split at the first `/`, the determinization of the regex's
`(@scope/)?` group: neither character class contains `/`, so the group's
slash can only be the first one. -/
def splitAtSlash (s : List Char) : List Char × List Char :=
  s.span (fun c => !(c == '/'))

/-- The `@scope/name` alternative of the validator regexes: an `@`, a scope
segment over the given classes up to the first `/`, then a name segment
over the shared name classes. -/
def scopedMatch (sfirst srest : Char → Bool) (s : List Char) : Bool :=
  match s with
  | [] => false
  | c0 :: r =>
    (c0 == '@') &&
    (match (splitAtSlash r).2 with
     | [] => false
     | c :: nm => (c == '/') && namePartMatch sfirst srest (splitAtSlash r).1 &&
         namePartMatch isNameFirstChar isNameRestChar nm)

/-- From `src/unnamed/part_000` (`isValidPackageName`): the regex
`(@[a-z0-9-~][a-z0-9-._~]*\/)?[a-z0-9-~][a-z0-9-._~]*` anchored on both
sides, with no length restriction. -/
def isValidPackageName (s : List Char) : Bool :=
  namePartMatch isNameFirstChar isNameRestChar s ||
    scopedMatch isNameFirstChar isNameRestChar s

/-- From `src/backend/src/services/npmService.ts` (`isValidPackageName`):
the regex `(?:@[a-z0-9-*~][a-z0-9-*._~]*\/)?[a-z0-9-~][a-z0-9-._~]*`
anchored on both sides, conjoined with `name.length <= 214`. -/
def isValidPackageNameBackend (s : List Char) : Bool :=
  (namePartMatch isNameFirstChar isNameRestChar s ||
    scopedMatch isScopeFirstCharB isScopeRestCharB s) && decide (s.length ≤ 214)

/-- The registry naming grammar exactly as the spec words it: an optional
`@scope/` prefix of lowercase alphanumerics, `-`, `.`, `~`, then a name of
the same character class, total length at most 214. Stated from the spec
sentence (no leading-character restriction, no underscore, no asterisk)
solely to compare the claim against the implemented validators. -/
def specNameChar (c : Char) : Bool :=
  ('a' ≤ c && c ≤ 'z') || ('0' ≤ c && c ≤ '9') || c == '-' || c == '.' || c == '~'

/-- Nonempty segment over the spec's character class. -/
def specNamePart (s : List Char) : Bool :=
  !s.isEmpty && s.all specNameChar

/-- The spec grammar's `@scope/name` alternative. -/
def specScoped (s : List Char) : Bool :=
  match s with
  | [] => false
  | c0 :: r =>
    (c0 == '@') &&
    (match (splitAtSlash r).2 with
     | [] => false
     | c :: nm => (c == '/') && specNamePart (splitAtSlash r).1 && specNamePart nm)

/-- Acceptance by the naming grammar as the spec words it (see
`specNameChar`). -/
def specGrammarValid (s : List Char) : Bool :=
  (specNamePart s || specScoped s) && decide (s.length ≤ 214)

/-- A nonempty segment with a leading character from `first` and the rest
from `rest` — the declarative reading of `namePartMatch`. -/
def ValidPart (first rest : Char → Bool) (s : List Char) : Prop :=
  ∃ c cs, s = c :: cs ∧ first c = true ∧ ∀ x ∈ cs, rest x = true

/-- From `addNewPackage` in `src/backend/src/scripts/collect-data.ts`: the
name is validated before anything else; only a valid name reaches the
network lookup and the rest of the flow, whose combined outcome is
abstracted by `restOfFlow`. The pair is (result, networkCalled). -/
def addNewPackage (restOfFlow : Bool) (name : List Char) : Bool × Bool :=
  if isValidPackageNameBackend name = false then (false, false)
  else (restOfFlow, true)

theorem growthRatesOf_length (h : List ℚ) : (growthRatesOf h).length = h.length - 1 := by
  match h with
  | [] => rfl
  | [a] => rfl
  | a :: b :: rest =>
    simp only [growthRatesOf, List.length_cons]
    rw [growthRatesOf_length (b :: rest)]
    simp

/-- C1: `calculateGrowthRate(current, previous)` equals
`(current − previous)/previous × 100` when `previous ≠ 0`; when
`previous = 0` it returns the infinite-growth sentinel if `current > 0` and
`0` otherwise; in particular `growthRate(0,0) = 0`, `growthRate(100,0)` is
the sentinel, and `growthRate(150,100) = 50`. -/
theorem calculateGrowthRate_spec :
    (∀ current previous : ℚ, previous ≠ 0 →
      calculateGrowthRate current previous = .fin ((current - previous) / previous * 100)) ∧
    (∀ current : ℚ, 0 < current → calculateGrowthRate current 0 = .posinf) ∧
    (∀ current : ℚ, current ≤ 0 → calculateGrowthRate current 0 = .fin 0) ∧
    calculateGrowthRate 0 0 = .fin 0 ∧
    calculateGrowthRate 100 0 = .posinf ∧
    calculateGrowthRate 150 100 = .fin 50 := by
  refine ⟨?_, ?_, ?_, ?_, ?_, ?_⟩
  · intro c p hp; simp [calculateGrowthRate, hp]
  · intro c hc; simp [calculateGrowthRate, hc]
  · intro c hc; simp [calculateGrowthRate, not_lt.mpr hc]
  · norm_num [calculateGrowthRate]
  · norm_num [calculateGrowthRate]
  · norm_num [calculateGrowthRate]

theorem calculateGrowthRate_spec_witness :
    calculateGrowthRate 7 3 = .fin ((7 - 3) / 3 * 100) ∧
    calculateGrowthRate 5 0 = .posinf ∧
    calculateGrowthRate (-2) 0 = .fin 0 :=
  ⟨calculateGrowthRate_spec.1 7 3 (by norm_num),
   calculateGrowthRate_spec.2.1 5 (by norm_num),
   calculateGrowthRate_spec.2.2.1 (-2) (by norm_num)⟩

/-- C2: the trend classification is evaluated in this fixed priority order:
`exponential` if `isExponential`; else `accelerating` if the acceleration is
non-null and greater than 10; else `growing` if the growth rate exceeds 20;
else `stable` if the growth rate exceeds −10; else `declining`. -/
theorem determineTrend_spec :
    (∀ g a, determineTrend g a true = Trend.exponential) ∧
    (∀ g x, JsNum.lt (.fin 10) x = true → determineTrend g (some x) false = Trend.accelerating) ∧
    (∀ g a, (∀ x, a = some x → JsNum.lt (.fin 10) x = false) →
      JsNum.lt (.fin 20) g = true → determineTrend g a false = Trend.growing) ∧
    (∀ g a, (∀ x, a = some x → JsNum.lt (.fin 10) x = false) →
      JsNum.lt (.fin 20) g = false → JsNum.lt (.fin (-10)) g = true →
      determineTrend g a false = Trend.stable) ∧
    (∀ g a, (∀ x, a = some x → JsNum.lt (.fin 10) x = false) →
      JsNum.lt (.fin 20) g = false → JsNum.lt (.fin (-10)) g = false →
      determineTrend g a false = Trend.declining) := by
  refine ⟨fun g a => rfl, ?_, ?_, ?_, ?_⟩
  · intro g x hx; simp [determineTrend, hx]
  · intro g a ha hg
    cases a with
    | none => simp [determineTrend, hg]
    | some x => simp [determineTrend, ha x rfl, hg]
  · intro g a ha hg hg2
    cases a with
    | none => simp [determineTrend, hg, hg2]
    | some x => simp [determineTrend, ha x rfl, hg, hg2]
  · intro g a ha hg hg2
    cases a with
    | none => simp [determineTrend, hg, hg2]
    | some x => simp [determineTrend, ha x rfl, hg, hg2]

theorem determineTrend_spec_witness :
    determineTrend (.fin 0) none true = Trend.exponential ∧
    determineTrend (.fin 0) (some (.fin 11)) false = Trend.accelerating ∧
    determineTrend (.fin 25) (some (.fin 5)) false = Trend.growing ∧
    determineTrend (.fin 15) none false = Trend.stable ∧
    determineTrend (.fin (-50)) none false = Trend.declining :=
  ⟨determineTrend_spec.1 (.fin 0) none,
   determineTrend_spec.2.1 (.fin 0) (.fin 11) (by norm_num [JsNum.lt]),
   determineTrend_spec.2.2.1 (.fin 25) (some (.fin 5))
     (by intro x hx; cases hx; norm_num [JsNum.lt]) (by norm_num [JsNum.lt]),
   determineTrend_spec.2.2.2.1 (.fin 15) none (by intro x hx; cases hx)
     (by norm_num [JsNum.lt]) (by norm_num [JsNum.lt]),
   determineTrend_spec.2.2.2.2 (.fin (-50)) none (by intro x hx; cases hx)
     (by norm_num [JsNum.lt]) (by norm_num [JsNum.lt])⟩

/-- C3: `isExponentialGrowth` returns `false` on fewer than 3 points;
otherwise the per-step growth-rate sequence has length `points − 1`, and the
result is `true` exactly when the number of strictly increasing consecutive
growth-rate pairs divided by (growth-rate-sequence length − 1) exceeds 0.6;
in particular `[100, 150, 225, 338]` yields `false` and `[100, 120, 180, 400]`
yields `true`. -/
theorem isExponentialGrowth_spec :
    (∀ h : List ℚ, h.length < 3 → isExponentialGrowth h = false) ∧
    (∀ h : List ℚ, (growthRatesOf h).length = h.length - 1) ∧
    (∀ h : List ℚ, 3 ≤ h.length →
      (isExponentialGrowth h = true ↔
        (3 : ℚ) / 5 <
          (countAccel (growthRatesOf h) : ℚ) / (((growthRatesOf h).length : ℚ) - 1))) ∧
    isExponentialGrowth [100, 150, 225, 338] = false ∧
    isExponentialGrowth [100, 120, 180, 400] = true := by
  refine ⟨?_, growthRatesOf_length, ?_, ?_, ?_⟩
  · intro h hlen; simp [isExponentialGrowth, hlen]
  · intro h hlen
    simp [isExponentialGrowth, Nat.not_lt.mpr hlen, gt_iff_lt]
  · norm_num [isExponentialGrowth, growthRatesOf, countAccel, calculateGrowthRate, JsNum.lt]
  · norm_num [isExponentialGrowth, growthRatesOf, countAccel, calculateGrowthRate, JsNum.lt]

theorem isExponentialGrowth_spec_witness :
    isExponentialGrowth [7, 9] = false ∧
    (isExponentialGrowth [100, 120, 180, 400] = true ↔
      (3 : ℚ) / 5 < (countAccel (growthRatesOf [100, 120, 180, 400]) : ℚ) /
        (((growthRatesOf [100, 120, 180, 400]).length : ℚ) - 1)) :=
  ⟨isExponentialGrowth_spec.1 [7, 9] (by norm_num),
   isExponentialGrowth_spec.2.2.1 [100, 120, 180, 400] (by norm_num)⟩

/-- C4: the acceleration is `null` iff the history has fewer than 3 points;
with at least 3 points it equals
`growthRate(last, second-last) − growthRate(second-last, third-last)`;
in particular `[100, 150, 300]` yields 50. -/
theorem calculateAcceleration_spec :
    (∀ h : List ℚ, (calculateAcceleration h = none ↔ h.length < 3)) ∧
    (∀ h : List ℚ, 3 ≤ h.length →
      calculateAcceleration h = some (JsNum.sub
        (calculateGrowthRate (h.getD (h.length - 1) 0) (h.getD (h.length - 2) 0))
        (calculateGrowthRate (h.getD (h.length - 2) 0) (h.getD (h.length - 3) 0)))) ∧
    calculateAcceleration [100, 150, 300] = some (.fin 50) := by
  refine ⟨?_, ?_, ?_⟩
  · intro h
    by_cases hlen : h.length < 3
    · simp [calculateAcceleration, hlen]
    · simp [calculateAcceleration, hlen]
  · intro h hlen
    simp [calculateAcceleration, Nat.not_lt.mpr hlen]
  · norm_num [calculateAcceleration, calculateGrowthRate, JsNum.sub]

theorem calculateAcceleration_spec_witness :
    calculateAcceleration [1, 2] = none ∧
    calculateAcceleration [100, 150, 300] = some (JsNum.sub
      (calculateGrowthRate ([100, 150, 300].getD 2 0) ([100, 150, 300].getD 1 0))
      (calculateGrowthRate ([100, 150, 300].getD 1 0) ([100, 150, 300].getD 0 0))) :=
  ⟨(calculateAcceleration_spec.1 [1, 2]).mpr (by norm_num),
   calculateAcceleration_spec.2.1 [100, 150, 300] (by norm_num)⟩

theorem insertCmp_perm (lt : α → α → Bool) (x : α) (l : List α) :
    (insertCmp lt x l).Perm (x :: l) := by
  induction l with
  | nil => exact List.Perm.refl _
  | cons y ys ih =>
    simp only [insertCmp]
    by_cases h : lt y x = true
    · rw [if_pos h]
      exact (ih.cons y).trans (List.Perm.swap x y ys)
    · rw [if_neg h]

theorem sortCmp_perm (lt : α → α → Bool) (l : List α) : (sortCmp lt l).Perm l := by
  induction l with
  | nil => exact List.Perm.refl _
  | cons x xs ih => exact (insertCmp_perm lt x (sortCmp lt xs)).trans (ih.cons x)

theorem insertCmp_pairwise (lt : α → α → Bool)
    (hasym : ∀ a b, lt a b = true → lt b a = false)
    (htrans : ∀ a b c, lt b a = false → lt c b = false → lt c a = false)
    (x : α) (l : List α) (hl : l.Pairwise fun a b => lt b a = false) :
    (insertCmp lt x l).Pairwise fun a b => lt b a = false := by
  induction l with
  | nil => simp [insertCmp]
  | cons y ys ih =>
    rcases List.pairwise_cons.mp hl with ⟨hy, hys⟩
    simp only [insertCmp]
    by_cases h : lt y x = true
    · rw [if_pos h]
      refine List.pairwise_cons.mpr ⟨?_, ih hys⟩
      intro z hz
      rcases List.mem_cons.mp ((insertCmp_perm lt x ys).subset hz) with rfl | hzys
      · exact hasym y z h
      · exact hy z hzys
    · rw [if_neg h]
      refine List.pairwise_cons.mpr ⟨?_, hl⟩
      intro z hz
      rcases List.mem_cons.mp hz with rfl | hzys
      · exact Bool.not_eq_true _ ▸ (by simpa using h)
      · exact htrans x y z (by simpa using h) (hy z hzys)

theorem sortCmp_pairwise (lt : α → α → Bool)
    (hasym : ∀ a b, lt a b = true → lt b a = false)
    (htrans : ∀ a b c, lt b a = false → lt c b = false → lt c a = false)
    (l : List α) :
    (sortCmp lt l).Pairwise fun a b => lt b a = false := by
  induction l with
  | nil => simp [sortCmp]
  | cons x xs ih => exact insertCmp_pairwise lt hasym htrans x _ ih

theorem filter_insertCmp_pos (lt : α → α → Bool) (p : α → Bool) (x : α) (l : List α)
    (hx : p x = true) (hcls : ∀ b ∈ l, p b = true → lt b x = false) :
    (insertCmp lt x l).filter p = x :: l.filter p := by
  induction l with
  | nil => simp [insertCmp, hx]
  | cons y ys ih =>
    simp only [insertCmp]
    by_cases h : lt y x = true
    · have hpy : p y = false := by
        by_contra hpy
        have h2 := hcls y (List.mem_cons_self y ys) (by simpa using hpy)
        rw [h2] at h
        simp at h
      rw [if_pos h]
      rw [List.filter_cons, List.filter_cons, hpy]
      simp only [Bool.false_eq_true, if_false]
      exact ih (fun b hb hpb => hcls b (List.mem_cons_of_mem y hb) hpb)
    · rw [if_neg h]
      rw [List.filter_cons, hx]
      simp

theorem filter_insertCmp_neg (lt : α → α → Bool) (p : α → Bool) (x : α) (l : List α)
    (hx : p x = false) :
    (insertCmp lt x l).filter p = l.filter p := by
  induction l with
  | nil => simp [insertCmp, hx]
  | cons y ys ih =>
    simp only [insertCmp]
    by_cases h : lt y x = true
    · rw [if_pos h, List.filter_cons, List.filter_cons, ih]
    · rw [if_neg h, List.filter_cons, hx]
      simp

theorem filter_sortCmp (lt : α → α → Bool) (p : α → Bool)
    (hcls : ∀ a b, p a = true → p b = true → lt a b = false) (l : List α) :
    (sortCmp lt l).filter p = l.filter p := by
  induction l with
  | nil => rfl
  | cons x xs ih =>
    simp only [sortCmp]
    by_cases hx : p x = true
    · rw [filter_insertCmp_pos lt p x _ hx
        (fun b hb hpb => hcls b x hpb hx), List.filter_cons, hx, ih]
      simp
    · have hx' : p x = false := by simpa using hx
      rw [filter_insertCmp_neg lt p x _ hx', List.filter_cons, hx', ih]
      simp

theorem perm_eq_of_short {α : Type} {l₁ l₂ : List α} (hp : l₁.Perm l₂)
    (h : l₁.length < 2) : l₁ = l₂ := by
  match l₁, h with
  | [], _ => exact hp.nil_eq
  | [a], _ => exact List.singleton_perm.mp hp

/-- C5: on fewer than 2 data points (including the empty sequence) the
metrics record is degenerate: growth rate 0, acceleration `null`, trend
`stable`, exponential flag `false`, `currentDownloads` the single point's
downloads (0 when empty), `previousDownloads` 0, and `dataPoints` the input
length. -/
theorem calculateGrowthMetrics_degenerate (packageName : String)
    (l : List PackageDownloads) (h : l.length < 2) :
    calculateGrowthMetrics packageName l =
      { packageName := packageName
        currentDownloads := match l with | [] => 0 | p :: _ => p.downloads
        previousDownloads := 0
        growthRate := .fin 0
        percentageGrowth := .fin 0
        isExponential := false
        acceleration := none
        trend := .stable
        dataPoints := l.length } := by
  match l with
  | [] => simp [calculateGrowthMetrics]
  | [p] => simp [calculateGrowthMetrics]
  | p :: q :: rest => simp only [List.length_cons] at h; omega

theorem calculateGrowthMetrics_degenerate_witness :
    calculateGrowthMetrics "react"
      [{ id := "1", package_name := "react", downloads := 42, date := 0, created_at := "x" }] =
      { packageName := "react", currentDownloads := 42, previousDownloads := 0,
        growthRate := .fin 0, percentageGrowth := .fin 0, isExponential := false,
        acceleration := none, trend := .stable, dataPoints := 1 } := by
  have h := calculateGrowthMetrics_degenerate "react"
    [{ id := "1", package_name := "react", downloads := 42, date := 0, created_at := "x" }]
    (by norm_num)
  simpa using h

/-- C6: `calculateGrowthMetrics` sorts its input by date before computing,
so for a list of download points with pairwise-distinct dates the result is
invariant under any permutation of the input. -/
theorem calculateGrowthMetrics_perm_invariant (packageName : String)
    (l₁ l₂ : List PackageDownloads) (hp : l₁.Perm l₂)
    (hd : l₁.Pairwise fun a b => a.date ≠ b.date) :
    calculateGrowthMetrics packageName l₁ = calculateGrowthMetrics packageName l₂ := by
  by_cases hlen : l₁.length < 2
  · rw [perm_eq_of_short hp hlen]
  · have asym : ∀ a b : PackageDownloads, dateLt a b = true → dateLt b a = false := by
      intro a b h; simp [dateLt] at *; omega
    have htrans : ∀ a b c : PackageDownloads,
        dateLt b a = false → dateLt c b = false → dateLt c a = false := by
      intro a b c h1 h2; simp [dateLt] at *; omega
    have hlen2 : l₁.length = l₂.length := hp.length_eq
    have hd₂ : l₂.Pairwise fun a b => a.date ≠ b.date :=
      hp.pairwise hd (fun h => Ne.symm h)
    have hds₁ : (sortCmp dateLt l₁).Pairwise fun a b => a.date ≠ b.date :=
      ((sortCmp_perm dateLt l₁).symm).pairwise hd (fun h => Ne.symm h)
    have hds₂ : (sortCmp dateLt l₂).Pairwise fun a b => a.date ≠ b.date :=
      ((sortCmp_perm dateLt l₂).symm).pairwise hd₂ (fun h => Ne.symm h)
    have strict₁ : (sortCmp dateLt l₁).Pairwise fun a b => a.date < b.date := by
      refine ((sortCmp_pairwise dateLt asym htrans l₁).and hds₁).imp ?_
      intro a b hab
      rcases hab with ⟨h1, h2⟩
      simp [dateLt] at h1
      omega
    have strict₂ : (sortCmp dateLt l₂).Pairwise fun a b => a.date < b.date := by
      refine ((sortCmp_pairwise dateLt asym htrans l₂).and hds₂).imp ?_
      intro a b hab
      rcases hab with ⟨h1, h2⟩
      simp [dateLt] at h1
      omega
    have hperm : (sortCmp dateLt l₁).Perm (sortCmp dateLt l₂) :=
      (sortCmp_perm dateLt l₁).trans (hp.trans (sortCmp_perm dateLt l₂).symm)
    have hsort : sortCmp dateLt l₁ = sortCmp dateLt l₂ :=
      List.Perm.eq_of_sorted (fun a b _ _ hab hba => ((lt_asymm hab) hba).elim)
        strict₁ strict₂ hperm
    have hlen₂' : ¬ l₂.length < 2 := by omega
    simp only [calculateGrowthMetrics, hsort, hlen2, if_neg hlen₂']

theorem calculateGrowthMetrics_perm_invariant_witness :
    calculateGrowthMetrics "react"
      [{ id := "1", package_name := "react", downloads := 100, date := 0, created_at := "x" },
       { id := "2", package_name := "react", downloads := 150, date := 7, created_at := "x" }] =
    calculateGrowthMetrics "react"
      [{ id := "2", package_name := "react", downloads := 150, date := 7, created_at := "x" },
       { id := "1", package_name := "react", downloads := 100, date := 0, created_at := "x" }] :=
  calculateGrowthMetrics_perm_invariant "react" _ _
    (List.Perm.swap _ _ _)
    (by norm_num [List.pairwise_cons])


theorem insertCmp_pairwise_on (lt : α → α → Bool) (P : α → Prop)
    (hasym : ∀ a b, lt a b = true → lt b a = false)
    (htrans : ∀ a b c, P a → P b → P c →
      lt b a = false → lt c b = false → lt c a = false)
    (x : α) (hx : P x) (l : List α) (hlP : ∀ a ∈ l, P a)
    (hl : l.Pairwise fun a b => lt b a = false) :
    (insertCmp lt x l).Pairwise fun a b => lt b a = false := by
  induction l with
  | nil => simp [insertCmp]
  | cons y ys ih =>
    rcases List.pairwise_cons.mp hl with ⟨hy, hys⟩
    simp only [insertCmp]
    by_cases h : lt y x = true
    · rw [if_pos h]
      refine List.pairwise_cons.mpr
        ⟨?_, ih (fun a ha => hlP a (List.mem_cons_of_mem y ha)) hys⟩
      intro z hz
      rcases List.mem_cons.mp ((insertCmp_perm lt x ys).subset hz) with rfl | hzys
      · exact hasym y z h
      · exact hy z hzys
    · rw [if_neg h]
      refine List.pairwise_cons.mpr ⟨?_, hl⟩
      intro z hz
      rcases List.mem_cons.mp hz with rfl | hzys
      · exact (by simpa using h)
      · exact htrans x y z hx (hlP y (List.mem_cons_self y ys))
          (hlP z (List.mem_cons_of_mem y hzys)) (by simpa using h) (hy z hzys)

theorem sortCmp_pairwise_on (lt : α → α → Bool) (P : α → Prop)
    (hasym : ∀ a b, lt a b = true → lt b a = false)
    (htrans : ∀ a b c, P a → P b → P c →
      lt b a = false → lt c b = false → lt c a = false)
    (l : List α) (hlP : ∀ a ∈ l, P a) :
    (sortCmp lt l).Pairwise fun a b => lt b a = false := by
  induction l with
  | nil => simp [sortCmp]
  | cons x xs ih =>
    exact insertCmp_pairwise_on lt P hasym htrans x
      (hlP x (List.mem_cons_self x xs))
      (sortCmp lt xs)
      (fun a ha => hlP a (List.mem_cons_of_mem x ((sortCmp_perm lt xs).subset ha)))
      (ih (fun a ha => hlP a (List.mem_cons_of_mem x ha)))

theorem jsnum_sub_lt_asym (x y : JsNum) :
    JsNum.lt (JsNum.sub y x) (JsNum.fin 0) = true →
    JsNum.lt (JsNum.sub x y) (JsNum.fin 0) = false := by
  cases x <;> cases y <;> simp [JsNum.sub, JsNum.lt] <;> intro h <;> linarith

theorem jsnum_sub_lt_trans (x y z : JsNum) (hx : x ≠ .nan) (hy : y ≠ .nan) (hz : z ≠ .nan) :
    JsNum.lt (JsNum.sub x y) (JsNum.fin 0) = false →
    JsNum.lt (JsNum.sub y z) (JsNum.fin 0) = false →
    JsNum.lt (JsNum.sub x z) (JsNum.fin 0) = false := by
  cases x <;> cases y <;> cases z <;>
    simp_all [JsNum.sub, JsNum.lt] <;> (intro h1 h2; linarith)

theorem accelLt_asym (a b : GrowthMetrics) :
    accelLt a b = true → accelLt b a = false := by
  unfold accelLt
  match ha : a.acceleration, hb : b.acceleration with
  | none, none => simp
  | none, some _ => simp
  | some _, none => simp
  | some x, some y => exact jsnum_sub_lt_asym x y



theorem accelLt_trans_on (a b c : GrowthMetrics)
    (ha : a.acceleration ≠ some JsNum.nan) (hb : b.acceleration ≠ some JsNum.nan)
    (hc : c.acceleration ≠ some JsNum.nan) :
    accelLt b a = false → accelLt c b = false → accelLt c a = false := by
  unfold accelLt
  rcases ha2 : a.acceleration with _ | x <;>
    rcases hb2 : b.acceleration with _ | y <;>
      rcases hc2 : c.acceleration with _ | z <;> simp_all
  exact jsnum_sub_lt_trans x y z (by simpa using ha) (by simpa using hb) (by simpa using hc)

theorem jsnum_lt_of_sub (x y : JsNum) :
    JsNum.lt (JsNum.sub x y) (JsNum.fin 0) = false → JsNum.lt x y = false := by
  cases x <;> cases y <;> simp [JsNum.sub, JsNum.lt] <;> intro h <;> linarith

theorem calculateGrowthRate_cases (x y : ℚ) :
    (calculateGrowthRate x y = .posinf ∧ y = 0 ∧ 0 < x) ∨
      ∃ q, calculateGrowthRate x y = .fin q := by
  unfold calculateGrowthRate
  split_ifs with h1 h2
  · exact Or.inl ⟨rfl, h1, h2⟩
  · exact Or.inr ⟨0, rfl⟩
  · exact Or.inr ⟨_, rfl⟩

theorem calculateAcceleration_ne_nan (h : List ℚ) :
    calculateAcceleration h ≠ some JsNum.nan := by
  unfold calculateAcceleration
  by_cases hlen : h.length < 3
  · simp [hlen]
  · rw [if_neg hlen]
    intro hcontra
    dsimp only at hcontra
    have hcontra2 :
        JsNum.sub (calculateGrowthRate (h.getD (h.length - 1) 0) (h.getD (h.length - 2) 0))
          (calculateGrowthRate (h.getD (h.length - 2) 0) (h.getD (h.length - 3) 0)) =
          JsNum.nan := Option.some.inj hcontra
    rcases calculateGrowthRate_cases (h.getD (h.length - 1) 0) (h.getD (h.length - 2) 0)
      with ⟨hr, hb0, hapos⟩ | ⟨q, hr⟩ <;>
    rcases calculateGrowthRate_cases (h.getD (h.length - 2) 0) (h.getD (h.length - 3) 0)
      with ⟨hp, hc0, hbpos⟩ | ⟨p, hp⟩ <;>
      rw [hr, hp] at hcontra2 <;> simp [JsNum.sub] at hcontra2
    rw [hb0] at hbpos
    exact absurd hbpos (lt_irrefl 0)

/-- C10: the engine never produces a NaN acceleration, and, for every list
of metrics whose accelerations are NaN-free, sorting by acceleration
descending places every null-acceleration entry after every numeric one and
orders the numeric entries by descending acceleration; the sort is stable:
for each acceleration value the entries holding it keep their original
relative order (in particular the null entries do). -/
theorem sortMetricsAccelDesc_spec :
    (∀ h : List ℚ, calculateAcceleration h ≠ some JsNum.nan) ∧
    (∀ l : List GrowthMetrics, (∀ m ∈ l, m.acceleration ≠ some JsNum.nan) →
      ((sortMetricsAccelDesc l).Pairwise fun a b =>
          a.acceleration = none → b.acceleration = none) ∧
      ((sortMetricsAccelDesc l).Pairwise fun a b => ∀ x y,
          a.acceleration = some x → b.acceleration = some y → JsNum.lt x y = false)) ∧
    (∀ (l : List GrowthMetrics) (k : Option JsNum),
      (sortMetricsAccelDesc l).filter (fun m => decide (m.acceleration = k)) =
        l.filter (fun m => decide (m.acceleration = k))) := by
  refine ⟨calculateAcceleration_ne_nan, ?_, ?_⟩
  · intro l hl
    have hs := sortCmp_pairwise_on accelLt (fun m => m.acceleration ≠ some JsNum.nan)
      accelLt_asym (fun a b c ha hb hc => accelLt_trans_on a b c ha hb hc) l hl
    constructor
    · refine hs.imp ?_
      intro a b hab hnone
      cases hbacc : b.acceleration with
      | none => rfl
      | some y => simp [accelLt, hbacc, hnone] at hab
    · refine hs.imp ?_
      intro a b hab x y hx hy
      have hsub : JsNum.lt (JsNum.sub x y) (JsNum.fin 0) = false := by
        simpa [accelLt, hx, hy] using hab
      exact jsnum_lt_of_sub x y hsub
  · intro l k
    refine filter_sortCmp accelLt (fun m => decide (m.acceleration = k)) ?_ l
    intro a b ha hb
    have ha' : a.acceleration = k := of_decide_eq_true ha
    have hb' : b.acceleration = k := of_decide_eq_true hb
    show accelLt a b = false
    rw [accelLt, ha', hb']
    cases k with
    | none => rfl
    | some x => cases x <;> simp [JsNum.sub, JsNum.lt, sub_self]

theorem sortMetricsAccelDesc_spec_witness :
    (((sortMetricsAccelDesc
        [{ packageName := "a", currentDownloads := 0, previousDownloads := 0,
           growthRate := .fin 0, percentageGrowth := .fin 0, isExponential := false,
           acceleration := none, trend := .stable, dataPoints := 0 },
         { packageName := "b", currentDownloads := 0, previousDownloads := 0,
           growthRate := .fin 0, percentageGrowth := .fin 0, isExponential := false,
           acceleration := some (.fin 5), trend := .stable, dataPoints := 0 }]).Pairwise
        fun a b => a.acceleration = none → b.acceleration = none) ∧
     ((sortMetricsAccelDesc
        [{ packageName := "a", currentDownloads := 0, previousDownloads := 0,
           growthRate := .fin 0, percentageGrowth := .fin 0, isExponential := false,
           acceleration := none, trend := .stable, dataPoints := 0 },
         { packageName := "b", currentDownloads := 0, previousDownloads := 0,
           growthRate := .fin 0, percentageGrowth := .fin 0, isExponential := false,
           acceleration := some (.fin 5), trend := .stable, dataPoints := 0 }]).Pairwise
        fun a b => ∀ x y, a.acceleration = some x → b.acceleration = some y →
          JsNum.lt x y = false)) :=
  sortMetricsAccelDesc_spec.2.1 _ (by intro m hm; fin_cases hm <;> simp)


theorem rowKeyIs_self (pkg dt : String) (d : ℚ) :
    rowKeyIs pkg dt { package_name := pkg, date := dt, downloads := d } = true := by
  simp [rowKeyIs]

theorem filter_saveDownloadStats (pkg dt : String) (d : ℚ) :
    ∀ s : Store, KeyUnique s →
      (saveDownloadStats s pkg d dt).filter (rowKeyIs pkg dt) =
        [{ package_name := pkg, date := dt, downloads := d }] := by
  intro s hu
  induction s with
  | nil => simp [saveDownloadStats, rowKeyIs]
  | cons r rs ih =>
    rcases List.pairwise_cons.mp hu with ⟨hr, hrs⟩
    by_cases hpr : rowKeyIs pkg dt r = true
    · have hkey : r.package_name = pkg ∧ r.date = dt := by
        simpa [rowKeyIs] using hpr
      have hnone : ∀ r2 ∈ rs, rowKeyIs pkg dt r2 = false := by
        intro r2 hr2
        by_contra hcon
        have h2 : r2.package_name = pkg ∧ r2.date = dt := by
          simpa [rowKeyIs] using hcon
        exact hr r2 hr2 ⟨hkey.1.trans h2.1.symm, hkey.2.trans h2.2.symm⟩
      have hany : (r :: rs).any (rowKeyIs pkg dt) = true := by simp [hpr]
      rw [saveDownloadStats, if_pos hany]
      have hmap : rs.map
          (fun r2 => if rowKeyIs pkg dt r2 then { r2 with downloads := d } else r2) = rs := by
        rw [show rs = rs.map id from (List.map_id rs).symm]
        simp only [List.map_map]
        apply List.map_congr_left
        intro a ha
        simp [hnone a (by simpa using ha)]
      rw [List.map_cons, if_pos hpr, hmap, List.filter_cons]
      have hfr : rowKeyIs pkg dt { r with downloads := d } = true := by
        simp [rowKeyIs, hkey.1, hkey.2]
      rw [hfr]
      simp only [if_pos]
      rw [List.filter_eq_nil_iff.mpr (fun a ha => by simp [hnone a ha])]
      have : ({ r with downloads := d } : DownloadRow) =
          { package_name := pkg, date := dt, downloads := d } := by
        cases r
        simp_all
      rw [this]
    · have hpr' : rowKeyIs pkg dt r = false := by simpa using hpr
      have hstep : saveDownloadStats (r :: rs) pkg d dt =
          r :: saveDownloadStats rs pkg d dt := by
        by_cases hany : rs.any (rowKeyIs pkg dt) = true
        · rw [saveDownloadStats, if_pos (by simp [hany]), saveDownloadStats, if_pos hany]
          rw [List.map_cons, if_neg (by simp [hpr'])]
        · have hany2 : (r :: rs).any (rowKeyIs pkg dt) = false := by
            simp [hpr']
            simpa using hany
          rw [saveDownloadStats, if_neg (by simp [hany2]), saveDownloadStats,
            if_neg (by simpa using hany)]
          simp
      rw [hstep, List.filter_cons, hpr']
      simp only [Bool.false_eq_true, if_false]
      exact ih hrs



theorem upd_package_name (pkg dt : String) (d : ℚ) (r : DownloadRow) :
    ((if rowKeyIs pkg dt r then { r with downloads := d } else r) : DownloadRow).package_name =
      r.package_name := by
  split <;> rfl

theorem upd_date (pkg dt : String) (d : ℚ) (r : DownloadRow) :
    ((if rowKeyIs pkg dt r then { r with downloads := d } else r) : DownloadRow).date =
      r.date := by
  split <;> rfl

theorem keyUnique_saveDownloadStats (pkg dt : String) (d : ℚ) (s : Store)
    (hu : KeyUnique s) : KeyUnique (saveDownloadStats s pkg d dt) := by
  rw [saveDownloadStats]
  by_cases hany : s.any (rowKeyIs pkg dt) = true
  · rw [if_pos hany, KeyUnique, List.pairwise_map]
    refine hu.imp ?_
    intro a b hab
    simpa only [upd_package_name, upd_date] using hab
  · rw [if_neg hany, KeyUnique, List.pairwise_append]
    refine ⟨hu, by simp, ?_⟩
    intro a ha b hb
    rw [List.mem_singleton] at hb
    subst hb
    intro hcon
    have hk : rowKeyIs pkg dt a = true := by simp [rowKeyIs, hcon.1, hcon.2]
    exact hany (List.any_eq_true.mpr ⟨a, ha, hk⟩)

theorem saveDownloadStats_idem (pkg dt : String) (d : ℚ) (s : Store) (hu : KeyUnique s) :
    saveDownloadStats (saveDownloadStats s pkg d dt) pkg d dt =
      saveDownloadStats s pkg d dt := by
  have hfilter := filter_saveDownloadStats pkg dt d s hu
  set t := saveDownloadStats s pkg d dt with ht
  have hmem : ({ package_name := pkg, date := dt, downloads := d } : DownloadRow) ∈
      t.filter (rowKeyIs pkg dt) := by rw [hfilter]; exact List.mem_singleton.mpr rfl
  have hany : t.any (rowKeyIs pkg dt) = true :=
    List.any_eq_true.mpr ⟨_, (List.mem_filter.mp hmem).1, (List.mem_filter.mp hmem).2⟩
  rw [saveDownloadStats, if_pos hany]
  have hfix : ∀ r ∈ t, (if rowKeyIs pkg dt r then { r with downloads := d } else r) = r := by
    intro r hrt
    by_cases hk : rowKeyIs pkg dt r = true
    · rw [if_pos hk]
      have hrf : r ∈ t.filter (rowKeyIs pkg dt) := List.mem_filter.mpr ⟨hrt, hk⟩
      rw [hfilter, List.mem_singleton] at hrf
      subst hrf
      rfl
    · rw [if_neg hk]
  calc t.map (fun r => if rowKeyIs pkg dt r then { r with downloads := d } else r)
      = t.map id := List.map_congr_left (fun a ha => hfix a ha)
    _ = t := List.map_id t

/-- C7 counterexample: the backfill write path is not an idempotent upsert.
Starting from the empty table, writing `(react, 2024-01-05, 100)` and then
writing the same key with downloads 200 leaves the OLD value 100 (not the
latest), and re-issuing the identical write reports an error — refuting the
claim that every write path is an idempotent, last-wins, error-free
upsert. -/
theorem backfillInsert_not_idempotent_upsert :
    (backfillInsert (backfillInsert [] "react" 100 "2024-01-05").1 "react" 200 "2024-01-05").1 =
      [{ package_name := "react", date := "2024-01-05", downloads := 100 }] ∧
    (backfillInsert (backfillInsert [] "react" 100 "2024-01-05").1 "react" 100 "2024-01-05").2 =
      true := by
  constructor
  · simp [backfillInsert, rowKeyIs]
  · simp [backfillInsert, rowKeyIs]

/-- C7 amended: `saveDownloadStats` (the `onConflict: package_name,date`
upsert used by the update and backfill-script paths) is an idempotent
upsert: on a key-unique table it preserves key-uniqueness, leaves exactly
one row with the written content, re-applying the identical write changes
nothing, and writing a different `downloads` for the same `(pkg, date)`
leaves exactly one row holding the latest value. (The `backfillPackageData`
path of `src/unnamed/part_000` instead uses a plain insert — see the
counterexample.) -/
theorem saveDownloadStats_upsert_spec (s : Store) (pkg dt : String) (d d' : ℚ)
    (hu : KeyUnique s) :
    KeyUnique (saveDownloadStats s pkg d dt) ∧
    (saveDownloadStats s pkg d dt).filter (rowKeyIs pkg dt) =
      [{ package_name := pkg, date := dt, downloads := d }] ∧
    saveDownloadStats (saveDownloadStats s pkg d dt) pkg d dt =
      saveDownloadStats s pkg d dt ∧
    (saveDownloadStats (saveDownloadStats s pkg d dt) pkg d' dt).filter (rowKeyIs pkg dt) =
      [{ package_name := pkg, date := dt, downloads := d' }] :=
  ⟨keyUnique_saveDownloadStats pkg dt d s hu,
   filter_saveDownloadStats pkg dt d s hu,
   saveDownloadStats_idem pkg dt d s hu,
   filter_saveDownloadStats pkg dt d' _ (keyUnique_saveDownloadStats pkg dt d s hu)⟩

theorem saveDownloadStats_upsert_spec_witness :
    saveDownloadStats (saveDownloadStats [] "react" 100 "2024-01-05") "react" 100 "2024-01-05" =
      saveDownloadStats [] "react" 100 "2024-01-05" ∧
    (saveDownloadStats (saveDownloadStats [] "react" 100 "2024-01-05") "react" 200
        "2024-01-05").filter (rowKeyIs "react" "2024-01-05") =
      [{ package_name := "react", date := "2024-01-05", downloads := 200 }] :=
  ⟨(saveDownloadStats_upsert_spec [] "react" "2024-01-05" 100 200 (by simp [KeyUnique])).2.2.1,
   (saveDownloadStats_upsert_spec [] "react" "2024-01-05" 100 200 (by simp [KeyUnique])).2.2.2⟩

theorem startOfDay_int_sub (k : ℤ) (m : ℤ) : startOfDay ((k : ℚ) - (m : ℚ)) = k - m := by
  rw [startOfDay, show (k : ℚ) - (m : ℚ) = ((k - m : ℤ) : ℚ) by push_cast; ring,
    Int.floor_intCast]

theorem bucketAt_endDate (c : ℤ) (i : ℕ) : (bucketAt c i).endDate = c - 7 * (i : ℤ) := by
  rw [bucketAt]
  show startOfDay ((c : ℚ) - 7 * (i : ℕ)) = c - 7 * (i : ℤ)
  rw [show (7 : ℚ) * (i : ℕ) = ((7 * (i : ℤ) : ℤ) : ℚ) by push_cast; ring]
  exact startOfDay_int_sub c (7 * (i : ℤ))

theorem bucketAt_startDate (c : ℤ) (i : ℕ) :
    (bucketAt c i).startDate = (bucketAt c i).endDate - 6 := by
  rw [bucketAt]
  show startOfDay (((startOfDay ((c : ℚ) - 7 * (i : ℕ)) : ℤ) : ℚ) - 6) = _
  rw [show ((6 : ℚ)) = ((6 : ℤ) : ℚ) by norm_num, startOfDay_int_sub]

/-- C8: the backfill walk for one package with `weeksBack = 52` and cutoff
`startOfDay(now − 3 days)` visits `i = 0..52` with bucket end
`cutoff − 7·i` days and bucket start `end − 6` days, producing exactly 53
(hence at most 53 distinct) bucket end-dates, none in the future, in
strictly decreasing order; the future-date skip drops nothing because every
end-date is at or before the cutoff. -/
theorem backfillBuckets_spec (now : ℚ) :
    (backfillBuckets now 52).map (fun b => b.endDate) =
      (List.range 53).map (fun i : ℕ => startOfDay (now - 3) - 7 * (i : ℤ)) ∧
    (∀ b ∈ backfillBuckets now 52, b.startDate = b.endDate - 6) ∧
    (backfillBuckets now 52).length = 53 ∧
    ((backfillBuckets now 52).map (fun b => b.endDate)).Pairwise (· > ·) ∧
    (∀ b ∈ backfillBuckets now 52, (b.endDate : ℚ) ≤ now) := by
  have hcut : ((startOfDay (now - 3) : ℤ) : ℚ) ≤ now - 3 := Int.floor_le _
  have hendle : ∀ i : ℕ, ((startOfDay (now - 3) - 7 * (i : ℤ) : ℤ) : ℚ) ≤ now := by
    intro i
    have hi : (0 : ℚ) ≤ ((7 * (i : ℤ) : ℤ) : ℚ) := by positivity
    push_cast
    push_cast at hcut hi
    linarith
  have hunfold : backfillBuckets now 52 =
      (List.range 53).map (bucketAt (startOfDay (now - 3))) := by
    rw [backfillBuckets]
    apply List.filter_eq_self.mpr
    intro b hb
    rcases List.mem_map.mp hb with ⟨i, hi, hbi⟩
    subst hbi
    simp only [bucketAt_endDate, Bool.not_eq_true', decide_eq_false_iff_not, not_lt]
    exact hendle i
  refine ⟨?_, ?_, ?_, ?_, ?_⟩
  · rw [hunfold, List.map_map]
    apply List.map_congr_left
    intro i hi
    simp only [Function.comp_apply]
    exact bucketAt_endDate _ i
  · intro b hb
    rw [hunfold] at hb
    rcases List.mem_map.mp hb with ⟨i, hi, hbi⟩
    subst hbi
    exact bucketAt_startDate _ i
  · rw [hunfold, List.length_map, List.length_range]
  · rw [hunfold, List.map_map, List.pairwise_map]
    refine (List.pairwise_lt_range 53).imp ?_
    intro i j hij
    simp only [Function.comp_apply, bucketAt_endDate]
    have hij2 : (i : ℤ) < (j : ℤ) := by exact_mod_cast hij
    omega
  · intro b hb
    rw [hunfold] at hb
    rcases List.mem_map.mp hb with ⟨i, hi, hbi⟩
    subst hbi
    rw [bucketAt_endDate]
    exact hendle i

theorem backfillBuckets_spec_witness :
    (backfillBuckets 100 52).length = 53 ∧
    (backfillBuckets 100 52).map (fun b => b.endDate) =
      (List.range 53).map (fun i : ℕ => startOfDay (100 - 3) - 7 * (i : ℤ)) :=
  ⟨(backfillBuckets_spec 100).2.2.1, (backfillBuckets_spec 100).1⟩

theorem namePartMatch_iff (first rest : Char → Bool) (s : List Char) :
    namePartMatch first rest s = true ↔ ValidPart first rest s := by
  cases s with
  | nil => simp [namePartMatch, ValidPart]
  | cons c cs =>
    simp only [namePartMatch, Bool.and_eq_true, List.all_eq_true, ValidPart]
    constructor
    · rintro ⟨h1, h2⟩
      exact ⟨c, cs, rfl, h1, h2⟩
    · rintro ⟨c2, cs2, heq, h1, h2⟩
      cases heq
      exact ⟨h1, h2⟩

theorem nameFirst_rest (c : Char) (h : isNameFirstChar c = true) :
    isNameRestChar c = true := by
  simp [isNameRestChar, h]

theorem nameRest_not_slash (c : Char) (h : isNameRestChar c = true) :
    (c == '/') = false := by
  by_contra hc
  have hc2 : c = '/' := by
    have hc3 : (c == '/') = true := by simpa using hc
    simpa using hc3
  subst hc2
  exact absurd h (by decide)

theorem scopeBFirst_rest (c : Char) (h : isScopeFirstCharB c = true) :
    isScopeRestCharB c = true := by
  rcases (by simpa [isScopeFirstCharB] using h :
    isNameFirstChar c = true ∨ (c == '*') = true) with h2 | h2
  · simp [isScopeRestCharB, nameFirst_rest c h2]
  · simp [isScopeRestCharB, h2]

theorem scopeBRest_not_slash (c : Char) (h : isScopeRestCharB c = true) :
    (c == '/') = false := by
  by_contra hc
  have hc2 : c = '/' := by
    have hc3 : (c == '/') = true := by simpa using hc
    simpa using hc3
  subst hc2
  exact absurd h (by decide)

theorem takeWhile_no_slash (scope nm : List Char)
    (h : ∀ c ∈ scope, (c == '/') = false) :
    (scope ++ '/' :: nm).takeWhile (fun c => !(c == '/')) = scope := by
  induction scope with
  | nil => simp
  | cons a as ih =>
    have ha : (a == '/') = false := h a (List.mem_cons_self a as)
    simp only [List.cons_append]
    rw [List.takeWhile_cons_of_pos (by simp [ha])]
    rw [ih (fun c hc => h c (List.mem_cons_of_mem a hc))]

theorem dropWhile_no_slash (scope nm : List Char)
    (h : ∀ c ∈ scope, (c == '/') = false) :
    (scope ++ '/' :: nm).dropWhile (fun c => !(c == '/')) = '/' :: nm := by
  induction scope with
  | nil => simp
  | cons a as ih =>
    have ha : (a == '/') = false := h a (List.mem_cons_self a as)
    simp only [List.cons_append]
    rw [List.dropWhile_cons_of_pos (by simp [ha])]
    exact ih (fun c hc => h c (List.mem_cons_of_mem a hc))

theorem span_no_slash (scope nm : List Char)
    (h : ∀ c ∈ scope, (c == '/') = false) :
    splitAtSlash (scope ++ '/' :: nm) = (scope, '/' :: nm) := by
  rw [splitAtSlash, List.span_eq_take_drop]
  simp only [Prod.mk.injEq]
  exact ⟨takeWhile_no_slash scope nm h, dropWhile_no_slash scope nm h⟩

theorem splitAtSlash_append (r : List Char) :
    r = (splitAtSlash r).1 ++ (splitAtSlash r).2 := by
  rw [splitAtSlash, List.span_eq_take_drop]
  exact (List.takeWhile_append_dropWhile (fun c => !(c == '/')) r).symm

theorem scopedMatch_iff (sfirst srest : Char → Bool)
    (hfr : ∀ c, sfirst c = true → srest c = true)
    (hslash : ∀ c, srest c = true → (c == '/') = false)
    (s : List Char) :
    scopedMatch sfirst srest s = true ↔
      ∃ scope nm, s = '@' :: (scope ++ '/' :: nm) ∧
        ValidPart sfirst srest scope ∧ ValidPart isNameFirstChar isNameRestChar nm := by
  constructor
  · intro h
    cases s with
    | nil => simp [scopedMatch] at h
    | cons c0 r =>
      rw [scopedMatch] at h
      rw [Bool.and_eq_true] at h
      rcases h with ⟨h0, h1⟩
      have hc0 : c0 = '@' := by simpa using h0
      subst hc0
      cases hr2 : (splitAtSlash r).2 with
      | nil => rw [hr2] at h1; simp at h1
      | cons c nm =>
        rw [hr2] at h1
        simp only [Bool.and_eq_true] at h1
        rcases h1 with ⟨⟨hc, hA⟩, hB⟩
        have hc' : c = '/' := by simpa using hc
        refine ⟨(splitAtSlash r).1, nm, ?_,
          (namePartMatch_iff _ _ _).mp hA, (namePartMatch_iff _ _ _).mp hB⟩
        conv_lhs => rw [splitAtSlash_append r]
        rw [hr2, hc']
  · rintro ⟨scope, nm, rfl, hsc, hnm⟩
    have hss : ∀ c ∈ scope, (c == '/') = false := by
      rcases hsc with ⟨c2, cs2, heq, h1, h2⟩
      subst heq
      intro c hc
      rcases List.mem_cons.mp hc with rfl | hc2
      · exact hslash c (hfr c h1)
      · exact hslash c (h2 c hc2)
    have hsp := span_no_slash scope nm hss
    rw [scopedMatch, hsp]
    simp [(namePartMatch_iff _ _ _).mpr hsc, (namePartMatch_iff _ _ _).mpr hnm]



/-- C9 amended: the frontend validator (`src/unnamed/part_000`) accepts a
name iff it matches the scoped-name grammar whose non-leading character
class also contains the underscore, with NO length bound; the backend
validator additionally enforces length ≤ 214 and allows `*` in the scope
segment; an invalid name is rejected before any network call. -/
theorem packageNameValidation_spec :
    (∀ s : List Char, isValidPackageName s = true ↔
      (ValidPart isNameFirstChar isNameRestChar s ∨
        ∃ scope nm, s = '@' :: (scope ++ '/' :: nm) ∧
          ValidPart isNameFirstChar isNameRestChar scope ∧
          ValidPart isNameFirstChar isNameRestChar nm)) ∧
    (∀ s : List Char, isValidPackageNameBackend s = true ↔
      ((ValidPart isNameFirstChar isNameRestChar s ∨
        ∃ scope nm, s = '@' :: (scope ++ '/' :: nm) ∧
          ValidPart isScopeFirstCharB isScopeRestCharB scope ∧
          ValidPart isNameFirstChar isNameRestChar nm) ∧ s.length ≤ 214)) ∧
    (∀ (restOfFlow : Bool) (name : List Char), isValidPackageNameBackend name = false →
      addNewPackage restOfFlow name = (false, false)) := by
  refine ⟨?_, ?_, ?_⟩
  · intro s
    rw [isValidPackageName, Bool.or_eq_true, namePartMatch_iff,
      scopedMatch_iff _ _ nameFirst_rest nameRest_not_slash]
  · intro s
    rw [isValidPackageNameBackend, Bool.and_eq_true, Bool.or_eq_true, namePartMatch_iff,
      scopedMatch_iff _ _ scopeBFirst_rest scopeBRest_not_slash, decide_eq_true_iff]
  · intro rf name h
    simp [addNewPackage, h]

set_option maxRecDepth 4000 in
/-- C9 counterexample: the 215-character name `aaa…a` exceeds the claimed
214-length bound (and so is outside the spec grammar), yet the part_000
validator accepts it; and `a_b`, accepted by both validators, is outside
the spec's character class, which lacks the underscore. -/
theorem packageNameValidation_counterexample :
    isValidPackageName (List.replicate 215 'a') = true ∧
    (List.replicate 215 'a').length = 215 ∧
    specGrammarValid (List.replicate 215 'a') = false ∧
    isValidPackageNameBackend ['a', '_', 'b'] = true ∧
    specGrammarValid ['a', '_', 'b'] = false := by
  refine ⟨?_, ?_, ?_, ?_, ?_⟩ <;> decide

theorem packageNameValidation_spec_witness :
    isValidPackageName ['r'] = true ∧
    addNewPackage true ['A'] = (false, false) :=
  ⟨(packageNameValidation_spec.1 ['r']).mpr
      (Or.inl ⟨'r', [], rfl, by decide, by simp⟩),
   packageNameValidation_spec.2.2 true ['A'] (by decide)⟩

end NpmDashboard
